import Mathlib

/-!
Verification of the counts_to_csv sparse-to-dense CSV conversion engine.

The Rust sources (`src/lib.rs`, `src/main.rs`) are shallowly embedded here:

* `RowValIter` mirrors the row-materializer struct of `lib.rs` (fields
  `data`, `indices`, `next`, `index`, `stop`); Rust slice iterators become
  Lean lists, and the `Iterator::next` method becomes the pure step
  function `RowValIter.step`.  The Rust `Default::default()` zero of the
  ten supported numeric element types is embedded as a `Zero` instance.
* Since a Rust iterator is driven by repeated `next` calls, the observable
  output sequence is recovered with the fuel-indexed `RowValIter.take`.
* The sparse matrix container and its validation/transpose are provided by
  the external sprs crate (`CsMatBase::try_new`, `transpose_mut`/`to_csr`),
  whose source is not part of this repository; those two operations are
  modelled from the specification text and marked as such.
* `arrays_to_csv` / `make_csv` embed the conversion pipeline of `lib.rs`,
  with the CSV sink modelled as the list of emitted records (each record a
  list of textual fields) and file I/O dropped.
-/

/-- Argument enum for the delimiter, from `lib.rs` (`enum Delimiter`). -/
inductive Delimiter
  | Comma
  | Tab
  | Colon
  | Pipe
  | Semicolon
deriving DecidableEq

/-- Argument enum for the column orientation, from `lib.rs` (`enum Orient`). -/
inductive Orient
  | VarNames
  | ObsNames
deriving DecidableEq

/-- The delimiter byte chosen in `arrays_to_csv` (`lib.rs`, match on
`args.delimiter`). -/
def delimChar : Delimiter → Char
  | .Comma => ','
  | .Tab => '\t'
  | .Colon => ':'
  | .Pipe => '|'
  | .Semicolon => ';'

/-- The row materializer state, from `lib.rs` (`struct RowValIter`): the
remaining value slice iterator, the remaining column-index slice iterator,
the buffered next column index, the current output position, and the
declared row length (`values.dim()`). -/
structure RowValIter (T : Type) where
  data : List T
  indices : List Nat
  next : Option Nat
  index : Nat
  stop : Nat
deriving DecidableEq

/-- `RowValIter::new` from `lib.rs`: takes the value slice, the
column-index slice and the declared dimension of one sparse row, buffers
the first column index into `next` and starts at position 0. -/
def RowValIter.new {T : Type} (values : List T) (indices : List Nat) (dim : Nat) :
    RowValIter T :=
  { data := values
    indices := indices.tail
    next := indices.head?
    index := 0
    stop := dim }

/-- One call of `<RowValIter as Iterator>::next` from `lib.rs`: if a
buffered column index exists and equals the current position, emit the
next stored value and advance both cursors; if it does not equal the
current position, emit zero and advance only the position; if no column
index remains, emit zero while the position is below `stop`, else stop.
Returns the emitted item together with the successor state, or `none`
when the iterator is exhausted. -/
def RowValIter.step {T : Type} [Zero T] (it : RowValIter T) :
    Option (T × RowValIter T) :=
  match it.next with
  | some ind =>
    if it.index = ind then
      match it.data with
      | [] => none
      | v :: rest =>
        some (v, { it with
          data := rest
          next := it.indices.head?
          indices := it.indices.tail
          index := it.index + 1 })
    else
      some (0, { it with index := it.index + 1 })
  | none =>
    if it.index < it.stop then
      some (0, { it with index := it.index + 1 })
    else
      none

/-- The list of items produced by driving the iterator with at most `fuel`
calls of `next` (the Rust consumer, serde's `collect_seq`, pulls until the
first `none`). -/
def RowValIter.take {T : Type} [Zero T] : Nat → RowValIter T → List T
  | 0, _ => []
  | fuel + 1, it =>
    match it.step with
    | none => []
    | some (v, it2) => v :: RowValIter.take fuel it2

/-- Spec-side description of one dense position: the stored value whose
column index equals `i` when such an entry exists, else the type's zero. -/
def specValueAt {T : Type} [Zero T] (inds : List Nat) (vals : List T) (i : Nat) : T :=
  match (inds.zip vals).find? (fun e => e.1 == i) with
  | some e => e.2
  | none => 0

/-- Spec-side description of the materialized row: a sequence of exactly
`L` values where position `i` holds the value stored at column index `i`
if present, else zero. -/
def denseRowSpec {T : Type} [Zero T] (inds : List Nat) (vals : List T) (L : Nat) :
    List T :=
  (List.range L).map (specValueAt inds vals)

/-- The CSR matrix container: row/column counts plus the three backing
arrays (`indptr`, `indices`, `data`), as assembled by
`CsMatBase::try_new((obs_vec.len(), var_vec.len()), indptr, indices, data)`
in `lib.rs`. -/
structure CsrMatrix (T : Type) where
  nrows : Nat
  ncols : Nat
  indptr : List Nat
  indices : List Nat
  data : List T
deriving DecidableEq

/-- The slice of `(column index, value)` entries belonging to row `i`:
positions `indptr[i]` up to `indptr[i+1]` of the parallel
`indices`/`data` arrays. -/
def CsrMatrix.rowSlice {T : Type} (m : CsrMatrix T) (i : Nat) : List (Nat × T) :=
  ((m.indices.zip m.data).drop (m.indptr.getD i 0)).take
    (m.indptr.getD (i + 1) 0 - m.indptr.getD i 0)

/-- All row slices, in row-major order (the matrix's `outer_iterator`). -/
def CsrMatrix.rowSlices {T : Type} (m : CsrMatrix T) : List (List (Nat × T)) :=
  (List.range m.nrows).map m.rowSlice

/-- The `(row, col, value)` triples stored in the matrix, in row-major
order. -/
def CsrMatrix.triples {T : Type} (m : CsrMatrix T) : List (Nat × Nat × T) :=
  (List.range m.nrows).flatMap (fun i => (m.rowSlice i).map (fun e => (i, e.1, e.2)))

/-- Cumulative number of entries in the first `i` of the given rows; used
as the row-pointer values when rebuilding a CSR matrix from row slices. -/
def prefLen {α : Type} (rows : List (List α)) (i : Nat) : Nat :=
  ((rows.take i).map List.length).sum

/-- Rebuild a CSR matrix from a list of per-row `(column index, value)`
slices: row pointers are the cumulative slice lengths, and the index and
value arrays are the concatenated slice components. -/
def CsrMatrix.ofRows {T : Type} (ncols : Nat) (rows : List (List (Nat × T))) :
    CsrMatrix T :=
  { nrows := rows.length
    ncols := ncols
    indptr := (List.range (rows.length + 1)).map (prefLen rows)
    indices := rows.flatMap (fun r => r.map Prod.fst)
    data := rows.flatMap (fun r => r.map Prod.snd) }

/-- Modelled from the spec: the transpose operation
(`transpose_mut()` followed by `to_csr()` from the external sprs crate,
whose source is not in src/).  Per the spec it "produces the matrix with
rows and columns swapped, row slices re-sorted by ascending column index";
it re-buckets every `(row, col, value)` triple by its column and rebuilds
a CSR matrix whose row `j` holds, in ascending old-row order, the entries
`(i, v)` of the old column `j`. -/
def CsrMatrix.transpose {T : Type} (m : CsrMatrix T) : CsrMatrix T :=
  CsrMatrix.ofRows m.nrows
    ((List.range m.ncols).map (fun j =>
      (m.triples.filter (fun t => t.2.1 == j)).map (fun t => (t.1, t.2.2))))

/-- Boolean check that a run of row pointers is non-decreasing. -/
def nonDecr : List Nat → Bool
  | [] => true
  | [_] => true
  | a :: b :: rest => decide (a ≤ b) && nonDecr (b :: rest)

/-- Modelled from the spec: the structural validation performed by the
sparse-matrix constructor (`CsMatBase::try_new` from the external sprs
crate, whose source is not in src/).  Per the spec, construction "fails
with a StructuralError when array lengths are mutually inconsistent
(`len(row_pointers) != row_count+1`, `len(column_indices) != len(values)`,
any column index `>= col_count`, `row_pointers` not non-decreasing, or
final `row_pointers` entry not equal to `len(values)`)". -/
def csrStructOk (nrows ncols : Nat) (indptr indices : List Nat) (dataLen : Nat) :
    Bool :=
  (indptr.length == nrows + 1) &&
  (indices.length == dataLen) &&
  indices.all (fun c => decide (c < ncols)) &&
  nonDecr indptr &&
  (indptr.getLast? == some dataLen)

/-- The same structural conditions, as a proposition. -/
def CsrStructWf (nrows ncols : Nat) (indptr indices : List Nat) (dataLen : Nat) :
    Prop :=
  indptr.length = nrows + 1 ∧
  indices.length = dataLen ∧
  (∀ c ∈ indices, c < ncols) ∧
  List.Chain' (· ≤ ·) indptr ∧
  indptr.getLast? = some dataLen

/-- Modelled from the spec: `CsMatBase::try_new` (external sprs crate, not
in src/) — validate the raw arrays and either return the assembled matrix
or a structural error. -/
def tryNewCsr {T : Type} (nrows ncols : Nat) (indptr indices : List Nat)
    (data : List T) : Except String (CsrMatrix T) :=
  if csrStructOk nrows ncols indptr indices data.length then
    .ok ⟨nrows, ncols, indptr, indices, data⟩
  else
    .error "CSR structure error"

/-- Orientation selection, from the match on `args.column_orient` in
`arrays_to_csv` (`lib.rs`): `ObsNames` transposes the matrix and returns
`(matrix, header, first_col, row_names) = (mᵀ, obs_vec, "gene", var_vec)`;
`VarNames` leaves the matrix unchanged and returns
`(m, var_vec, "cell", obs_vec)`. -/
def orientSelect {T : Type} (orient : Orient) (m : CsrMatrix T)
    (obs_vec var_vec : List String) :
    CsrMatrix T × List String × String × List String :=
  match orient with
  | .ObsNames => (m.transpose, obs_vec, "gene", var_vec)
  | .VarNames => (m, var_vec, "cell", obs_vec)

/-- Full materialization of one sparse row slice via the Rust iterator,
with enough fuel for every terminating run (`L` dense positions plus at
most one pull per stored entry plus the final exhaustion check). -/
def materializeRow {T : Type} [Zero T] (slice : List (Nat × T)) (L : Nat) : List T :=
  RowValIter.take (L + slice.length + 1)
    (RowValIter.new (slice.map Prod.snd) (slice.map Prod.fst) L)

/-- The conversion pipeline `arrays_to_csv` from `lib.rs`, with the CSV
sink modelled as the chosen delimiter plus the list of emitted records
(each record a list of textual fields, values rendered by `toField`, which
stands for serde's per-type field serialization).  The source validates
the arrays via `try_new` first (line 187), only then opens the output file
(line 201), writes the single header record `first_col :: header`
(lines 207-208) and then, zipping row slices with row names, one record
`name :: materialized values` per row (lines 211-221).  An `error` result
therefore carries no records: nothing was emitted and the file was never
opened. -/
def arrays_to_csv {T : Type} [Zero T] (toField : T → String) (orient : Orient)
    (delim : Delimiter) (data : List T) (indptr indices : List Nat)
    (obs_vec var_vec : List String) :
    Except String (Char × List (List String)) :=
  match tryNewCsr obs_vec.length var_vec.length indptr indices data with
  | .error e => .error e
  | .ok m =>
    let sel := orientSelect orient m obs_vec var_vec
    .ok (delimChar delim,
      (sel.2.2.1 :: sel.2.1) ::
        ((sel.1.rowSlices.zip sel.2.2.2).map
          (fun p => p.2 :: (materializeRow p.1 sel.1.ncols).map toField)))

/-- The records actually emitted by a conversion run: none on error. -/
def emittedRecords : Except String (Char × List (List String)) → List (List String)
  | .error _ => []
  | .ok out => out.2

/-- The ten supported element-type tags, as read from the source
container's dtype name (`make_csv` in `lib.rs`). -/
def supportedTypeTags : List String :=
  ["int8", "int16", "int32", "int64", "uint8", "uint16", "uint32", "uint64",
   "float32", "float64"]

/-- The ten Rust element-type abbreviations used by the code's error
message. -/
def rustAbbrevs : List String :=
  ["i8", "i16", "i32", "i64", "u8", "u16", "u32", "u64", "f32", "f64"]

/-- The error message emitted for an unrecognized dtype tag (`lib.rs`
line 253 and `main.rs` line 249, verbatim). -/
def invalidTypeMsg : String :=
  "Invalid data type\nPossible data types: i8, i16, i32, i64, u8, u16, u32, u64, f32, f64"

/-- The concrete instantiation selected by the dtype dispatch. -/
inductive ElemType
  | int8 | int16 | int32 | int64
  | uint8 | uint16 | uint32 | uint64
  | float32 | float64
deriving DecidableEq

/-- The dtype-tag dispatch of `make_csv` (`lib.rs` lines 242-254): match
the runtime tag against the ten supported names, selecting which concrete
instantiation of `arrays_to_csv` to run, or fall through to the
`Invalid data type` error. -/
def dispatchDtype (tag : String) : Except String ElemType :=
  if tag = "int8" then .ok .int8
  else if tag = "int16" then .ok .int16
  else if tag = "int32" then .ok .int32
  else if tag = "int64" then .ok .int64
  else if tag = "uint8" then .ok .uint8
  else if tag = "uint16" then .ok .uint16
  else if tag = "uint32" then .ok .uint32
  else if tag = "uint64" then .ok .uint64
  else if tag = "float32" then .ok .float32
  else if tag = "float64" then .ok .float64
  else .error invalidTypeMsg

/-- `make_csv` from `lib.rs`: dispatch on the runtime dtype tag, then run
the conversion (the per-type data extraction is abstracted into the
already-typed `data` list and its `toField` renderer; the dispatch
controls only whether the conversion runs at all, which is what the
error-path claims are about). -/
def make_csv {T : Type} [Zero T] (toField : T → String) (data_dtype : String)
    (orient : Orient) (delim : Delimiter) (data : List T)
    (indptr indices : List Nat) (obs_vec var_vec : List String) :
    Except String (Char × List (List String)) :=
  match dispatchDtype data_dtype with
  | .error e => .error e
  | .ok _ => arrays_to_csv toField orient delim data indptr indices obs_vec var_vec

/-- Field-wise copy of the iterator state: the derived `Clone` of
`RowValIter` (`lib.rs` line 97). -/
def RowValIter.clone {T : Type} (it : RowValIter T) : RowValIter T :=
  { data := it.data
    indices := it.indices
    next := it.next
    index := it.index
    stop := it.stop }

/-- The `Serialize` impl for `RowValIter` (`lib.rs` lines 152-159):
`serializer.collect_seq(self.clone())` drives a clone of the iterator to
exhaustion while only borrowing `self`; the result is the collected value
sequence together with the (unconsumed) original iterator state. -/
def RowValIter.serializeSeq {T : Type} [Zero T] (fuel : Nat) (it : RowValIter T) :
    List T × RowValIter T :=
  (RowValIter.take fuel it.clone, it)

/-- Swap the row and column of a `(row, col, value)` triple, keeping the
value. -/
def swapTriple {T : Type} (t : Nat × Nat × T) : Nat × Nat × T := (t.2.1, t.1, t.2.2)

/-- Boolean check that `pat` occurs as a contiguous run inside `l`. -/
def hasRun {A : Type} [BEq A] (pat : List A) : List A → Bool
  | [] => pat.isEmpty
  | a :: rest => pat.isPrefixOf (a :: rest) || hasRun pat rest

/-- The header record written by `arrays_to_csv`: the row-name-column
label picked by the orientation, followed by the header label set
(`write_field(first_col)` then `write_record(header)` form one record). -/
def hdrRecord : Orient → List String → List String → List String
  | .ObsNames, obs_vec, _ => "gene" :: obs_vec
  | .VarNames, _, var_vec => "cell" :: var_vec

/-! Step-equation lemmas for `RowValIter.step`, one per branch of the Rust
`next` method. -/

theorem RowValIter.step_none_lt {T : Type} [Zero T] (vals : List T) (inds : List Nat)
    (k L : Nat) (h : k < L) :
    RowValIter.step ⟨vals, inds, none, k, L⟩ = some (0, ⟨vals, inds, none, k + 1, L⟩) := by
  simp [RowValIter.step, h]

theorem RowValIter.step_none_ge {T : Type} [Zero T] (vals : List T) (inds : List Nat)
    (k L : Nat) (h : ¬ k < L) :
    RowValIter.step ⟨vals, inds, none, k, L⟩ = none := by
  simp [RowValIter.step, h]

theorem RowValIter.step_hit {T : Type} [Zero T] (v : T) (vr : List T) (inds : List Nat)
    (k L : Nat) :
    RowValIter.step ⟨v :: vr, inds, some k, k, L⟩
      = some (v, ⟨vr, inds.tail, inds.head?, k + 1, L⟩) := by
  simp [RowValIter.step]

theorem RowValIter.step_miss {T : Type} [Zero T] (vals : List T) (inds : List Nat)
    (i k L : Nat) (h : k ≠ i) :
    RowValIter.step ⟨vals, inds, some i, k, L⟩
      = some (0, ⟨vals, inds, some i, k + 1, L⟩) := by
  simp [RowValIter.step, h]

/-! Evaluation lemmas for the spec-side position lookup. -/

theorem specValueAt_nil {T : Type} [Zero T] (vals : List T) (i : Nat) :
    specValueAt [] vals i = 0 := rfl

theorem specValueAt_head {T : Type} [Zero T] (k : Nat) (rest : List Nat) (v : T)
    (vr : List T) : specValueAt (k :: rest) (v :: vr) k = v := by
  simp [specValueAt]

theorem specValueAt_cons_ne {T : Type} [Zero T] {k i : Nat} (rest : List Nat) (v : T)
    (vr : List T) (h : k ≠ i) :
    specValueAt (k :: rest) (v :: vr) i = specValueAt rest vr i := by
  simp only [specValueAt, List.zip_cons_cons, List.find?]
  have : (k == i) = false := by simpa using h
  rw [this]
  rfl

theorem specValueAt_eq_zero {T : Type} [Zero T] {inds : List Nat} {vals : List T}
    {i : Nat} (h : ∀ j ∈ inds, j ≠ i) : specValueAt inds vals i = 0 := by
  unfold specValueAt
  rw [List.find?_eq_none.mpr]
  intro e he
  have h1 := (List.of_mem_zip he).1
  simpa using h e.1 h1

theorem RowValIter.take_succ_of_step {T : Type} [Zero T] {it it2 : RowValIter T}
    {v : T} (h : it.step = some (v, it2)) (n : Nat) :
    RowValIter.take (n + 1) it = v :: RowValIter.take n it2 := by
  rw [RowValIter.take, h]

theorem RowValIter.take_nil_of_step {T : Type} [Zero T] {it : RowValIter T}
    (h : it.step = none) (n : Nat) : RowValIter.take (n + 1) it = [] := by
  rw [RowValIter.take, h]

/-- Core simulation lemma: driving the Rust iterator from position `k` with
sorted in-bounds column indices produces exactly the spec-side dense row
segment for positions `k..L`, truncated to the available fuel. -/
theorem rvi_take_spec {T : Type} [Zero T] :
    ∀ (n k : Nat) (inds : List Nat) (vals : List T) (L : Nat),
      List.Pairwise (· < ·) inds →
      (∀ i ∈ inds, k ≤ i ∧ i < L) →
      inds.length = vals.length →
      RowValIter.take n ⟨vals, inds.tail, inds.head?, k, L⟩ =
        ((List.range' k (L - k)).map (specValueAt inds vals)).take n := by
  intro n
  induction n with
  | zero => intro k inds vals L _ _ _; rfl
  | succ n ih =>
    intro k inds vals L hpw hbd hlen
    cases inds with
    | nil =>
      cases vals with
      | cons v vr => simp at hlen
      | nil =>
        by_cases hk : k < L
        · have hLk : L - k = (L - (k + 1)) + 1 := by omega
          rw [hLk, List.range'_succ]
          simp only [List.tail_nil, List.head?_nil, List.map_cons, List.take_succ_cons]
          rw [RowValIter.take_succ_of_step (RowValIter.step_none_lt _ _ _ _ hk) n]
          rw [specValueAt_nil]
          have ihe := ih (k + 1) [] [] L hpw (by simp) rfl
          simp only [List.tail_nil, List.head?_nil] at ihe
          rw [ihe]
        · have hLk : L - k = 0 := by omega
          rw [hLk]
          simp only [List.range'_zero, List.map_nil, List.take_nil, List.tail_nil,
            List.head?_nil]
          rw [RowValIter.take_nil_of_step (RowValIter.step_none_ge _ _ _ _ hk) n]
    | cons i rest =>
      have hi := hbd i (List.mem_cons_self i rest)
      by_cases hik : i = k
      · subst hik
        cases vals with
        | nil => simp at hlen
        | cons v vr =>
          have hk : i < L := hi.2
          have hLk : L - i = (L - (i + 1)) + 1 := by omega
          rw [hLk, List.range'_succ]
          simp only [List.tail_cons, List.head?_cons, List.map_cons, List.take_succ_cons]
          rw [RowValIter.take_succ_of_step (RowValIter.step_hit v vr rest i L) n]
          rw [specValueAt_head]
          have hcong : ∀ j ∈ List.range' (i + 1) (L - (i + 1)),
              specValueAt (i :: rest) (v :: vr) j = specValueAt rest vr j := by
            intro j hj
            have hj2 : i + 1 ≤ j := by
              rw [List.mem_range'] at hj
              obtain ⟨a, _, rfl⟩ := hj
              omega
            exact specValueAt_cons_ne rest v vr (by omega)
          rw [List.map_congr_left hcong]
          have hpw2 := List.pairwise_cons.mp hpw
          have ihe := ih (i + 1) rest vr L hpw2.2
            (fun j hj => ⟨hpw2.1 j hj, (hbd j (List.mem_cons_of_mem i hj)).2⟩)
            (by simpa using hlen)
          rw [ihe]
      · have hki : k < i := by omega
        have hkL : k < L := by omega
        have hLk : L - k = (L - (k + 1)) + 1 := by omega
        rw [hLk, List.range'_succ]
        simp only [List.tail_cons, List.head?_cons, List.map_cons, List.take_succ_cons]
        rw [RowValIter.take_succ_of_step (RowValIter.step_miss vals rest i k L (by omega)) n]
        rw [specValueAt_eq_zero (fun j hj => by
          rcases List.mem_cons.mp hj with h | h
          · omega
          · have := (List.pairwise_cons.mp hpw).1 j h
            omega)]
        have ihe := ih (k + 1) (i :: rest) vals L hpw
          (fun j hj => by
            rcases List.mem_cons.mp hj with h | h
            · subst h; exact ⟨by omega, hi.2⟩
            · have h1 := (List.pairwise_cons.mp hpw).1 j h
              have h2 := hbd j (List.mem_cons_of_mem i h)
              exact ⟨by omega, h2.2⟩)
          hlen
        simp only [List.tail_cons, List.head?_cons] at ihe
        rw [ihe]

/-! Helper lemmas about rebuilding a CSR matrix from row slices. -/

theorem prefLen_zero {α : Type} (rows : List (List α)) : prefLen rows 0 = 0 := rfl

theorem prefLen_cons_succ {α : Type} (r : List α) (rs : List (List α)) (i : Nat) :
    prefLen (r :: rs) (i + 1) = r.length + prefLen rs i := by
  simp [prefLen, List.take_succ_cons]

theorem flatten_drop_take {α : Type} :
    ∀ (rows : List (List α)) (i : Nat), i < rows.length →
      ((rows.flatten.drop (prefLen rows i)).take (prefLen rows (i + 1) - prefLen rows i))
        = rows.getD i [] := by
  intro rows
  induction rows with
  | nil => intro i h; simp at h
  | cons r rs ih =>
    intro i hi
    cases i with
    | zero =>
      have h2 : prefLen (r :: rs) 1 = r.length := by simp [prefLen]
      rw [prefLen_zero, h2, List.flatten_cons]
      simp only [List.drop_zero, Nat.sub_zero, List.getD_cons_zero]
      exact List.take_left r rs.flatten
    | succ i =>
      have hi2 : i < rs.length := by simpa using hi
      rw [prefLen_cons_succ, prefLen_cons_succ, List.flatten_cons]
      have hsub : r.length + prefLen rs (i + 1) - (r.length + prefLen rs i)
          = prefLen rs (i + 1) - prefLen rs i := by omega
      have hdrop : (r ++ rs.flatten).drop (r.length + prefLen rs i)
          = rs.flatten.drop (prefLen rs i) := by
        rw [← List.drop_drop, List.drop_left]
      rw [hsub, hdrop, List.getD_cons_succ]
      exact ih i hi2

theorem ofRows_indptr_getD {T : Type} (ncols : Nat) (rows : List (List (Nat × T)))
    (i : Nat) (h : i < rows.length + 1) :
    (CsrMatrix.ofRows ncols rows).indptr.getD i 0 = prefLen rows i := by
  simp [CsrMatrix.ofRows, List.getD_eq_getElem?_getD, List.getElem?_map,
    List.getElem?_range h]

theorem ofRows_zip {T : Type} (rows : List (List (Nat × T))) :
    ((rows.flatMap (fun r => r.map Prod.fst)).zip
      (rows.flatMap (fun r => r.map Prod.snd))) = rows.flatten := by
  induction rows with
  | nil => rfl
  | cons r rs ih =>
    simp only [List.flatMap_cons, List.flatten_cons]
    rw [List.zip_append (by simp), ih, List.zip_map']
    simp

theorem rowSlice_ofRows {T : Type} (ncols : Nat) (rows : List (List (Nat × T)))
    (i : Nat) (h : i < rows.length) :
    (CsrMatrix.ofRows ncols rows).rowSlice i = rows.getD i [] := by
  unfold CsrMatrix.rowSlice
  rw [show (CsrMatrix.ofRows ncols rows).indices
        = rows.flatMap (fun r => r.map Prod.fst) from rfl,
      show (CsrMatrix.ofRows ncols rows).data
        = rows.flatMap (fun r => r.map Prod.snd) from rfl,
      ofRows_zip,
      show (CsrMatrix.ofRows ncols rows).indptr
        = (List.range (rows.length + 1)).map (prefLen rows) from rfl]
  have e1 := ofRows_indptr_getD ncols rows i (by omega)
  have e2 := ofRows_indptr_getD ncols rows (i + 1) (by omega)
  rw [show (CsrMatrix.ofRows ncols rows).indptr
        = (List.range (rows.length + 1)).map (prefLen rows) from rfl] at e1 e2
  rw [e1, e2]
  exact flatten_drop_take rows i h

theorem rowSlices_ofRows {T : Type} (ncols : Nat) (rows : List (List (Nat × T))) :
    (CsrMatrix.ofRows ncols rows).rowSlices = rows := by
  unfold CsrMatrix.rowSlices
  have hn : (CsrMatrix.ofRows ncols rows).nrows = rows.length := rfl
  rw [hn]
  apply List.ext_getElem (by simp)
  intro n h1 h2
  rw [List.getElem_map, List.getElem_range]
  rw [rowSlice_ofRows ncols rows n h2]
  exact (List.getD_eq_getElem?_getD rows n []).trans (by simp [List.getElem?_eq_getElem h2])

/-! Helper lemmas about the stored triples. -/

theorem rowSlice_subset_zip {T : Type} (m : CsrMatrix T) (i : Nat) {e : Nat × T}
    (he : e ∈ m.rowSlice i) : e ∈ m.indices.zip m.data := by
  unfold CsrMatrix.rowSlice at he
  exact List.Sublist.mem he ((List.take_sublist _ _).trans (List.drop_sublist _ _))

theorem triples_mem {T : Type} {m : CsrMatrix T} {t : Nat × Nat × T}
    (ht : t ∈ m.triples) : t.1 < m.nrows ∧ t.2 ∈ m.indices.zip m.data := by
  unfold CsrMatrix.triples at ht
  rw [List.mem_flatMap] at ht
  obtain ⟨i, hi, hmem⟩ := ht
  rw [List.mem_map] at hmem
  obtain ⟨e, he, rfl⟩ := hmem
  exact ⟨by simpa using List.mem_range.mp hi, rowSlice_subset_zip m i he⟩

theorem triples_col_lt {T : Type} {m : CsrMatrix T}
    (hcol : ∀ c ∈ m.indices, c < m.ncols) {t : Nat × Nat × T}
    (ht : t ∈ m.triples) : t.2.1 < m.ncols :=
  hcol _ (List.of_mem_zip (triples_mem ht).2).1

theorem triples_row_lt {T : Type} {m : CsrMatrix T} {t : Nat × Nat × T}
    (ht : t ∈ m.triples) : t.1 < m.nrows :=
  (triples_mem ht).1

theorem flatMap_congr {α β : Type} {f g : α → List β} {l : List α}
    (h : ∀ a ∈ l, f a = g a) : l.flatMap f = l.flatMap g := by
  simp only [List.flatMap_def]
  rw [List.map_congr_left h]

/-- Re-bucketing a list by a key below `n` and concatenating the buckets in
key order is a permutation of the original list. -/
theorem bucket_perm {α : Type} (key : α → Nat) :
    ∀ (l : List α) (n : Nat), (∀ x ∈ l, key x < n) →
      ((List.range n).flatMap (fun j => l.filter (fun x => key x == j))).Perm l := by
  intro l
  induction l with
  | nil =>
    intro n _
    rw [List.flatMap_eq_nil_iff.mpr (fun _ _ => List.filter_nil _)]
  | cons x xs ih =>
    intro n hb
    have hx : key x < n := hb x (List.mem_cons_self x xs)
    have hrange : List.range n
        = List.range' 0 (key x) ++ (key x :: List.range' (key x + 1) (n - key x - 1)) := by
      rw [List.range_eq_range']
      have h1 : key x :: List.range' (key x + 1) (n - key x - 1)
          = List.range' (key x) ((n - key x - 1) + 1) := by
        rw [List.range'_succ]
      have h2 : (n - key x - 1) + 1 = n - key x := by omega
      rw [h1, h2]
      have h3 := List.range'_append_1 0 (key x) (n - key x)
      rw [show 0 + key x = key x from by omega] at h3
      rw [h3]
      congr 1
      omega
    rw [hrange, List.flatMap_append, List.flatMap_cons]
    have hA : ∀ j ∈ List.range' 0 (key x),
        (x :: xs).filter (fun y => key y == j) = xs.filter (fun y => key y == j) := by
      intro j hj
      have hlt : j < key x := by
        rw [List.mem_range'] at hj; obtain ⟨a, ha, rfl⟩ := hj; omega
      rw [List.filter_cons]
      have hne : (key x == j) = false := by simp; omega
      rw [hne]
      simp
    have hB : ∀ j ∈ List.range' (key x + 1) (n - key x - 1),
        (x :: xs).filter (fun y => key y == j) = xs.filter (fun y => key y == j) := by
      intro j hj
      have hgt : key x < j := by
        rw [List.mem_range'] at hj; obtain ⟨a, ha, rfl⟩ := hj; omega
      rw [List.filter_cons]
      have hne : (key x == j) = false := by simp; omega
      rw [hne]
      simp
    have hK : (x :: xs).filter (fun y => key y == key x)
        = x :: xs.filter (fun y => key y == key x) := by
      rw [List.filter_cons]
      simp
    rw [flatMap_congr hA, flatMap_congr hB, hK]
    have ihx := ih n (fun y hy => hb y (List.mem_cons_of_mem x hy))
    rw [hrange, List.flatMap_append, List.flatMap_cons] at ihx
    rw [List.cons_append]
    exact List.Perm.trans List.perm_middle (List.Perm.cons x ihx)

theorem transpose_nrows {T : Type} (m : CsrMatrix T) :
    m.transpose.nrows = m.ncols := by
  simp [CsrMatrix.transpose, CsrMatrix.ofRows]

theorem transpose_ncols {T : Type} (m : CsrMatrix T) :
    m.transpose.ncols = m.nrows := rfl

theorem transpose_rowSlices {T : Type} (m : CsrMatrix T) :
    m.transpose.rowSlices
      = (List.range m.ncols).map (fun j =>
          (m.triples.filter (fun t => t.2.1 == j)).map (fun t => (t.1, t.2.2))) := by
  unfold CsrMatrix.transpose
  exact rowSlices_ofRows _ _

theorem triples_def {T : Type} (m : CsrMatrix T) :
    m.triples = (List.range m.nrows).flatMap
      (fun i => (m.rowSlice i).map (fun e => (i, e.1, e.2))) := rfl

theorem transpose_triples {T : Type} (m : CsrMatrix T) :
    m.transpose.triples
      = (List.range m.ncols).flatMap (fun j =>
          ((m.triples.filter (fun t => t.2.1 == j)).map (fun t => (t.1, t.2.2))).map
            (fun e => (j, e.1, e.2))) := by
  rw [triples_def m.transpose, transpose_nrows]
  apply flatMap_congr
  intro j hj
  have hjlt : j < m.ncols := List.mem_range.mp hj
  congr 1
  unfold CsrMatrix.transpose
  rw [rowSlice_ofRows _ _ j (by simpa using hjlt)]
  simp [List.getD_eq_getElem?_getD, List.getElem?_map, List.getElem?_range hjlt]

theorem transpose_triples_perm {T : Type} (m : CsrMatrix T)
    (hcol : ∀ c ∈ m.indices, c < m.ncols) :
    m.transpose.triples.Perm (m.triples.map swapTriple) := by
  rw [transpose_triples]
  have h1 : ∀ j ∈ List.range m.ncols,
      ((m.triples.filter (fun t => t.2.1 == j)).map (fun t => (t.1, t.2.2))).map
        (fun e => (j, e.1, e.2))
      = (m.triples.filter (fun t => t.2.1 == j)).map swapTriple := by
    intro j hj
    rw [List.map_map]
    apply List.map_congr_left
    intro t ht
    have hcl := (List.mem_filter.mp ht).2
    have hj2 : t.2.1 = j := by simpa using hcl
    simp [swapTriple, Function.comp, hj2]
  rw [flatMap_congr h1, ← List.map_flatMap]
  exact List.Perm.map swapTriple
    (bucket_perm (fun t => t.2.1) m.triples m.ncols
      (fun t ht => triples_col_lt hcol ht))

/-- Row-major triples are pairwise ordered lexicographically whenever every
row slice is sorted by strictly ascending column index. -/
theorem triples_pairwise {T : Type} (m : CsrMatrix T)
    (hsorted : ∀ s ∈ m.rowSlices, List.Pairwise (· < ·) (s.map Prod.fst)) :
    List.Pairwise (fun a b : Nat × Nat × T =>
      a.1 < b.1 ∨ (a.1 = b.1 ∧ a.2.1 < b.2.1)) m.triples := by
  rw [triples_def, List.pairwise_flatMap]
  constructor
  · intro i hi
    rw [List.pairwise_map]
    have hmem : m.rowSlice i ∈ m.rowSlices := by
      unfold CsrMatrix.rowSlices
      exact List.mem_map_of_mem m.rowSlice hi
    have hs := hsorted (m.rowSlice i) hmem
    rw [List.pairwise_map] at hs
    exact hs.imp (fun h => Or.inr ⟨rfl, h⟩)
  · refine (List.pairwise_lt_range m.nrows).imp ?_
    intro i1 i2 h12 x hx y hy
    rw [List.mem_map] at hx hy
    obtain ⟨e1, _, rfl⟩ := hx
    obtain ⟨e2, _, rfl⟩ := hy
    exact Or.inl h12

/-- The transposed matrix's row slices are again sorted by strictly
ascending column index — this is exactly the CSR invariant after
re-bucketing. -/
theorem transpose_slices_sorted {T : Type} (m : CsrMatrix T)
    (hsorted : ∀ s ∈ m.rowSlices, List.Pairwise (· < ·) (s.map Prod.fst)) :
    ∀ s ∈ m.transpose.rowSlices, List.Pairwise (· < ·) (s.map Prod.fst) := by
  intro s hs
  rw [transpose_rowSlices, List.mem_map] at hs
  obtain ⟨j, hj, rfl⟩ := hs
  rw [List.map_map, List.pairwise_map]
  have hp := (triples_pairwise m hsorted).filter (fun t => t.2.1 == j)
  refine hp.imp_of_mem ?_
  intro a b ha hb hab
  have ha2 : a.2.1 = j := by simpa using (List.mem_filter.mp ha).2
  have hb2 : b.2.1 = j := by simpa using (List.mem_filter.mp hb).2
  rcases hab with h | h
  · simpa [Function.comp] using h
  · omega

/-- Every entry of a transposed row slice carries an original row index,
hence is bounded by the original row count. -/
theorem transpose_slice_entry_lt {T : Type} (m : CsrMatrix T) {s : List (Nat × T)}
    (hs : s ∈ m.transpose.rowSlices) {e : Nat × T} (he : e ∈ s) :
    e.1 < m.nrows := by
  rw [transpose_rowSlices, List.mem_map] at hs
  obtain ⟨j, hj, rfl⟩ := hs
  rw [List.mem_map] at he
  obtain ⟨t, ht, rfl⟩ := he
  exact triples_row_lt (List.mem_of_mem_filter ht)

/-- Every entry of a row slice has its column index in the `indices`
array. -/
theorem rowSlices_entry_mem {T : Type} (m : CsrMatrix T) {s : List (Nat × T)}
    (hs : s ∈ m.rowSlices) {e : Nat × T} (he : e ∈ s) : e.1 ∈ m.indices := by
  unfold CsrMatrix.rowSlices at hs
  rw [List.mem_map] at hs
  obtain ⟨i, _, rfl⟩ := hs
  exact (List.of_mem_zip (rowSlice_subset_zip m i he)).1

/-- With sorted in-bounds column indices, the fuel given in
`materializeRow` is enough: the iterator's full output is exactly the
spec-side dense row. -/
theorem materializeRow_eq_dense {T : Type} [Zero T] (slice : List (Nat × T)) (L : Nat)
    (hso : List.Pairwise (· < ·) (slice.map Prod.fst))
    (hlt : ∀ e ∈ slice, e.1 < L) :
    materializeRow slice L = denseRowSpec (slice.map Prod.fst) (slice.map Prod.snd) L := by
  unfold materializeRow RowValIter.new
  have h := rvi_take_spec (L + slice.length + 1) 0 (slice.map Prod.fst)
    (slice.map Prod.snd) L hso
    (fun i hi => by
      rw [List.mem_map] at hi
      obtain ⟨e, he, rfl⟩ := hi
      exact ⟨Nat.zero_le _, hlt e he⟩)
    (by simp)
  rw [h]
  unfold denseRowSpec
  rw [List.range_eq_range', Nat.sub_zero]
  apply List.take_of_length_le
  simp only [List.length_map, List.length_range']
  omega

theorem materializeRow_length {T : Type} [Zero T] (slice : List (Nat × T)) (L : Nat)
    (hso : List.Pairwise (· < ·) (slice.map Prod.fst))
    (hlt : ∀ e ∈ slice, e.1 < L) :
    (materializeRow slice L).length = L := by
  rw [materializeRow_eq_dense slice L hso hlt]
  simp [denseRowSpec]

/-- Summing the spec-side dense segment over positions `k..k+c` recovers
the sum of the stored values, provided the stored indices are sorted and
lie inside that window. -/
theorem dense_sum_spec {T : Type} [AddCommMonoid T] :
    ∀ (c k : Nat) (inds : List Nat) (vals : List T),
      List.Pairwise (· < ·) inds →
      (∀ i ∈ inds, k ≤ i ∧ i < k + c) →
      inds.length = vals.length →
      ((List.range' k c).map (specValueAt inds vals)).sum = vals.sum := by
  intro c
  induction c with
  | zero =>
    intro k inds vals _ hbd hlen
    cases inds with
    | cons i rest =>
      have := hbd i (List.mem_cons_self i rest)
      omega
    | nil =>
      cases vals with
      | cons v vr => simp at hlen
      | nil => simp
  | succ c ih =>
    intro k inds vals hpw hbd hlen
    rw [List.range'_succ, List.map_cons, List.sum_cons]
    cases inds with
    | nil =>
      cases vals with
      | cons v vr => simp at hlen
      | nil =>
        rw [specValueAt_nil, ih (k + 1) [] [] hpw (by simp) rfl]
        simp
    | cons i rest =>
      have hi := hbd i (List.mem_cons_self i rest)
      cases vals with
      | nil => simp at hlen
      | cons v vr =>
        by_cases hik : i = k
        · subst hik
          rw [specValueAt_head]
          have hcong : ∀ j ∈ List.range' (i + 1) c,
              specValueAt (i :: rest) (v :: vr) j = specValueAt rest vr j := by
            intro j hj
            have : i + 1 ≤ j := by
              rw [List.mem_range'] at hj
              obtain ⟨a, _, rfl⟩ := hj
              omega
            exact specValueAt_cons_ne rest v vr (by omega)
          rw [List.map_congr_left hcong]
          have hpw2 := List.pairwise_cons.mp hpw
          rw [ih (i + 1) rest vr hpw2.2
            (fun j hj => ⟨hpw2.1 j hj, by
              have := (hbd j (List.mem_cons_of_mem i hj)).2
              omega⟩)
            (by simpa using hlen)]
          simp
        · have hki : k < i := by omega
          rw [specValueAt_eq_zero (fun j hj => by
            rcases List.mem_cons.mp hj with h | h
            · omega
            · have := (List.pairwise_cons.mp hpw).1 j h
              omega)]
          rw [ih (k + 1) (i :: rest) (v :: vr) hpw
            (fun j hj => by
              rcases List.mem_cons.mp hj with h | h
              · subst h
                refine ⟨by omega, ?_⟩
                have := hi.2
                omega
              · have h1 := (List.pairwise_cons.mp hpw).1 j h
                have h2 := (hbd j (List.mem_cons_of_mem i h)).2
                exact ⟨by omega, by omega⟩)
            hlen]
          simp

/-! Relating the Boolean constructor validation to the propositional
structural conditions. -/

theorem nonDecr_iff : ∀ l : List Nat, nonDecr l = true ↔ List.Chain' (· ≤ ·) l
  | [] => by simp [nonDecr]
  | [a] => by simp [nonDecr]
  | a :: b :: t => by
    have ih := nonDecr_iff (b :: t)
    rw [nonDecr, Bool.and_eq_true, decide_eq_true_iff, ih, List.chain'_cons]

theorem csrStructOk_iff (nrows ncols : Nat) (indptr indices : List Nat)
    (dataLen : Nat) :
    csrStructOk nrows ncols indptr indices dataLen = true
      ↔ CsrStructWf nrows ncols indptr indices dataLen := by
  unfold csrStructOk CsrStructWf
  rw [Bool.and_eq_true, Bool.and_eq_true, Bool.and_eq_true, Bool.and_eq_true]
  rw [beq_iff_eq, beq_iff_eq, beq_iff_eq, List.all_eq_true, nonDecr_iff]
  constructor
  · rintro ⟨⟨⟨⟨h1, h2⟩, h3⟩, h4⟩, h5⟩
    exact ⟨h1, h2, fun c hc => by simpa using h3 c hc, h4, h5⟩
  · rintro ⟨h1, h2, h3, h4, h5⟩
    exact ⟨⟨⟨⟨h1, h2⟩, fun c hc => by simpa using h3 c hc⟩, h4⟩, h5⟩

/-- C1: for every sparse row with strictly increasing column indices all
below the declared row length `L` and a values array of the same length as
the index array, the row materializer (`RowValIter`) produces the sequence
`denseRowSpec inds vals L` — by definition a sequence of exactly `L`
items whose item at position `i` is the stored value with column index `i`
when present and the element type's zero otherwise (with zero sparse
entries it is `L` zeros) — and nothing beyond it, whatever the fuel. -/
theorem rowValIter_materializes_dense {T : Type} [Zero T] (inds : List Nat)
    (vals : List T) (L : Nat)
    (hso : List.Pairwise (· < ·) inds)
    (hlt : ∀ i ∈ inds, i < L)
    (hlen : inds.length = vals.length) :
    (∀ n, RowValIter.take n (RowValIter.new vals inds L)
        = (denseRowSpec inds vals L).take n) ∧
    (denseRowSpec inds vals L).length = L := by
  constructor
  · intro n
    have h := rvi_take_spec n 0 inds vals L hso
      (fun i hi => ⟨Nat.zero_le _, hlt i hi⟩) hlen
    unfold RowValIter.new
    rw [h]
    unfold denseRowSpec
    rw [List.range_eq_range', Nat.sub_zero]
  · simp [denseRowSpec]

/-- C1 witness: the spec's concrete second row (indices `[0, 2]`, values
`[7, 9]`, length 3) materializes to `[7, 0, 9]`. -/
theorem rowValIter_materializes_dense_witness :
    RowValIter.take 5 (RowValIter.new ([7, 9] : List Int) [0, 2] 3)
      = (denseRowSpec [0, 2] ([7, 9] : List Int) 3).take 5 :=
  (rowValIter_materializes_dense [0, 2] ([7, 9] : List Int) 3 (by decide) (by decide) rfl).1 5

/-- C2 counterexample: a row view holding column index 5 with declared
row length `L = 3` drives the materializer past position 3 — it produces
six items, `[0, 0, 0, 0, 0, 7]` — so the claim that even for an index
`>= L` the materializer stops at `L` and never produces more than `L`
items is false of the code (the `index < stop` guard sits only in the
`None` branch of `next`). -/
theorem rowValIter_overrun_counterexample :
    RowValIter.take 10 (RowValIter.new ([7] : List Int) [5] 3)
      = [0, 0, 0, 0, 0, 7] ∧
    ¬ (RowValIter.take 10 (RowValIter.new ([7] : List Int) [5] 3)).length ≤ 3 := by
  decide

/-- C2 amended: for every sparse row view whose column indices are
strictly increasing and all strictly below the declared row length `L`
(which the container-level validation ensures) and whose values array
matches the index array in length, the materializer terminates when the
position counter reaches `L`: it never produces more than `L` items, and
pulling beyond `L` produces nothing further. -/
theorem rowValIter_stops_at_length {T : Type} [Zero T] (inds : List Nat)
    (vals : List T) (L : Nat)
    (hso : List.Pairwise (· < ·) inds)
    (hlt : ∀ i ∈ inds, i < L)
    (hlen : inds.length = vals.length) :
    (∀ n, (RowValIter.take n (RowValIter.new vals inds L)).length ≤ L) ∧
    (∀ n, RowValIter.take (L + n) (RowValIter.new vals inds L)
        = RowValIter.take L (RowValIter.new vals inds L)) := by
  have hmain := (rowValIter_materializes_dense inds vals L hso hlt hlen).1
  have hL : (denseRowSpec inds vals L).length = L :=
    (rowValIter_materializes_dense inds vals L hso hlt hlen).2
  constructor
  · intro n
    rw [hmain n]
    calc ((denseRowSpec inds vals L).take n).length
        ≤ (denseRowSpec inds vals L).length := by
          rw [List.length_take]
          omega
      _ = L := hL
  · intro n
    rw [hmain (L + n), hmain L]
    rw [List.take_of_length_le (by omega), List.take_of_length_le (by omega)]

/-- C2 amended witness: with indices `[0, 2]` below `L = 3`, pulling seven
times still yields at most three items. -/
theorem rowValIter_stops_at_length_witness :
    (RowValIter.take 7 (RowValIter.new ([7, 9] : List Int) [0, 2] 3)).length ≤ 3 :=
  (rowValIter_stops_at_length [0, 2] ([7, 9] : List Int) 3 (by decide) (by decide) rfl).1 7

/-- C7: for every valid sparse row (sorted in-bounds indices, matching
lengths), the sum of the materializer's output sequence equals the sum of
the row's stored values — the zero-filled positions contribute nothing. -/
theorem materialized_sum_eq {T : Type} [AddCommMonoid T] (inds : List Nat)
    (vals : List T) (L : Nat)
    (hso : List.Pairwise (· < ·) inds)
    (hlt : ∀ i ∈ inds, i < L)
    (hlen : inds.length = vals.length) :
    ∀ n, L ≤ n → (RowValIter.take n (RowValIter.new vals inds L)).sum = vals.sum := by
  intro n hn
  have h := rvi_take_spec n 0 inds vals L hso
    (fun i hi => ⟨Nat.zero_le _, hlt i hi⟩) hlen
  unfold RowValIter.new
  rw [h, Nat.sub_zero]
  rw [List.take_of_length_le (by simp; omega)]
  exact dense_sum_spec L 0 inds vals hso
    (fun i hi => ⟨Nat.zero_le _, by simpa using hlt i hi⟩) hlen

/-- C7 witness: the spec's concrete second row sums to 16 both sparse and
materialized. -/
theorem materialized_sum_eq_witness :
    (RowValIter.take 5 (RowValIter.new ([7, 9] : List Int) [0, 2] 3)).sum
      = ([7, 9] : List Int).sum :=
  materialized_sum_eq [0, 2] ([7, 9] : List Int) 3 (by decide) (by decide) rfl 5 (by omega)

/-- C3: matrix construction from raw arrays fails with the structural
error whenever the arrays are mutually inconsistent in any of the five
ways listed by the spec, and the failed run emits no records — in the
source, `try_new` (lib.rs line 187) runs before the output file is opened
(line 201), so on error the file is never opened and no row is emitted. -/
theorem construct_rejects_inconsistent {T : Type} [Zero T] (toField : T → String)
    (orient : Orient) (delim : Delimiter) (data : List T)
    (indptr indices : List Nat) (obs_vec var_vec : List String)
    (h : ¬ CsrStructWf obs_vec.length var_vec.length indptr indices data.length) :
    arrays_to_csv toField orient delim data indptr indices obs_vec var_vec
      = .error "CSR structure error" ∧
    emittedRecords
      (arrays_to_csv toField orient delim data indptr indices obs_vec var_vec) = [] := by
  have hb : csrStructOk obs_vec.length var_vec.length indptr indices data.length
      = false := by
    cases hbe : csrStructOk obs_vec.length var_vec.length indptr indices data.length with
    | false => rfl
    | true => exact absurd ((csrStructOk_iff _ _ _ _ _).mp hbe) h
  have he : arrays_to_csv toField orient delim data indptr indices obs_vec var_vec
      = .error "CSR structure error" := by
    unfold arrays_to_csv tryNewCsr
    rw [hb]
    rfl
  exact ⟨he, by rw [he]; rfl⟩

/-- C3 witness: the spec's malformed example — `row_pointers = [0, 2, 5]`
with three declared rows (pointer array length 3 instead of 4) — is
rejected with no records emitted. -/
theorem construct_rejects_inconsistent_witness :
    arrays_to_csv toString Orient.VarNames Delimiter.Comma ([5, 7, 9] : List Int)
      [0, 2, 5] [1, 0, 2] ["a", "b", "c"] ["c0"] = .error "CSR structure error" ∧
    emittedRecords (arrays_to_csv toString Orient.VarNames Delimiter.Comma
      ([5, 7, 9] : List Int) [0, 2, 5] [1, 0, 2] ["a", "b", "c"] ["c0"]) = [] :=
  construct_rejects_inconsistent toString Orient.VarNames Delimiter.Comma
    [5, 7, 9] [0, 2, 5] [1, 0, 2] ["a", "b", "c"] ["c0"]
    (fun hwf => absurd hwf.1 (by decide))

/-- C4: transposing a structurally valid CSR matrix (column indices in
bounds, row slices sorted by strictly ascending column index) swaps row
and column roles — the multiset of `(row, col, value)` triples of the
transpose is exactly the original multiset with row and column swapped
and values identical — transposing twice restores the original row count,
and the transposed matrix again satisfies the CSR invariant (row slices
sorted by strictly ascending column index, hence no duplicate column per
row). -/
theorem transpose_involution_and_triples {T : Type} (m : CsrMatrix T)
    (hcol : ∀ c ∈ m.indices, c < m.ncols)
    (hsorted : ∀ s ∈ m.rowSlices, List.Pairwise (· < ·) (s.map Prod.fst)) :
    m.transpose.transpose.nrows = m.nrows ∧
    m.transpose.triples.Perm (m.triples.map swapTriple) ∧
    (∀ s ∈ m.transpose.rowSlices, List.Pairwise (· < ·) (s.map Prod.fst)) :=
  ⟨by rw [transpose_nrows, transpose_ncols],
   transpose_triples_perm m hcol,
   transpose_slices_sorted m hsorted⟩

/-- C4 witness: the spec's 2×3 matrix; its transpose's triples are a
permutation of the row/column-swapped originals. -/
theorem transpose_involution_and_triples_witness :
    (CsrMatrix.transpose (⟨2, 3, [0, 1, 3], [1, 0, 2], [5, 7, 9]⟩ : CsrMatrix Int)).triples.Perm
      ((⟨2, 3, [0, 1, 3], [1, 0, 2], [5, 7, 9]⟩ : CsrMatrix Int).triples.map swapTriple) :=
  (transpose_involution_and_triples _ (by decide) (by decide)).2.1

/-- C5: orientation selection with `ObsNames` (secondary as columns)
transposes the matrix, makes the obs labels the header, the var labels
the row names, and the row-name-column label `"gene"`; with `VarNames`
(primary as columns) the matrix is unchanged, the var labels are the
header, the obs labels the row names, and the label is `"cell"` — so on
the same source the two orientations produce header and row-name sets
that are exact swaps of each other. -/
theorem orient_selection_swap {T : Type} (m : CsrMatrix T)
    (obs_vec var_vec : List String) :
    orientSelect .ObsNames m obs_vec var_vec
      = (m.transpose, obs_vec, "gene", var_vec) ∧
    orientSelect .VarNames m obs_vec var_vec
      = (m, var_vec, "cell", obs_vec) ∧
    (orientSelect .ObsNames m obs_vec var_vec).2.1
      = (orientSelect .VarNames m obs_vec var_vec).2.2.2 ∧
    (orientSelect .VarNames m obs_vec var_vec).2.1
      = (orientSelect .ObsNames m obs_vec var_vec).2.2.2 :=
  ⟨rfl, rfl, rfl, rfl⟩

/-- C9: the `Serialize` impl for `RowValIter` iterates a clone, so
serialization returns the collected sequence while leaving the original
iterator state untouched; serializing again from that state yields the
same sequence, however many times this is repeated. -/
theorem serialize_borrows_iterator {T : Type} [Zero T] (fuel : Nat)
    (it : RowValIter T) :
    (RowValIter.serializeSeq fuel it).2 = it ∧
    (RowValIter.serializeSeq fuel it).1 = RowValIter.take fuel it ∧
    (RowValIter.serializeSeq fuel ((RowValIter.serializeSeq fuel it).2)).1
      = (RowValIter.serializeSeq fuel it).1 :=
  ⟨rfl, rfl, rfl⟩

/-- C10: the conversion is deterministic — two runs of `arrays_to_csv` on
equal inputs (same orientation, delimiter, data, row pointers, column
indices and label vectors) produce the identical output, delimiter and
record sequence included. -/
theorem conversion_deterministic {T : Type} [Zero T] (toField : T → String)
    (o1 o2 : Orient) (d1 d2 : Delimiter) (data1 data2 : List T)
    (ip1 ip2 ix1 ix2 : List Nat) (obs1 obs2 var1 var2 : List String)
    (ho : o1 = o2) (hd : d1 = d2) (hdata : data1 = data2) (hip : ip1 = ip2)
    (hix : ix1 = ix2) (hobs : obs1 = obs2) (hvar : var1 = var2) :
    arrays_to_csv toField o1 d1 data1 ip1 ix1 obs1 var1
      = arrays_to_csv toField o2 d2 data2 ip2 ix2 obs2 var2 := by
  subst ho
  subst hd
  subst hdata
  subst hip
  subst hix
  subst hobs
  subst hvar
  rfl

/-- C10 witness: two identical concrete runs agree. -/
theorem conversion_deterministic_witness :
    arrays_to_csv toString Orient.VarNames Delimiter.Comma ([5, 7, 9] : List Int)
      [0, 1, 3] [1, 0, 2] ["r0", "r1"] ["c0", "c1", "c2"]
    = arrays_to_csv toString Orient.VarNames Delimiter.Comma ([5, 7, 9] : List Int)
      [0, 1, 3] [1, 0, 2] ["r0", "r1"] ["c0", "c1", "c2"] :=
  conversion_deterministic toString Orient.VarNames Orient.VarNames
    Delimiter.Comma Delimiter.Comma [5, 7, 9] [5, 7, 9] [0, 1, 3] [0, 1, 3]
    [1, 0, 2] [1, 0, 2] ["r0", "r1"] ["r0", "r1"] ["c0", "c1", "c2"] ["c0", "c1", "c2"]
    rfl rfl rfl rfl rfl rfl rfl

/-- C6 counterexample: for the unrecognized tag `"complex64"` the dispatch
does report an error, but the message does not contain the valid tag name
`"int8"` (it lists the Rust abbreviations `i8, ..., f64` instead), so the
claim that the message enumerates all ten valid names is false of the
code. -/
theorem dtype_msg_counterexample :
    dispatchDtype "complex64" = .error invalidTypeMsg ∧
    hasRun "int8".toList invalidTypeMsg.toList = false := by
  constructor
  · rfl
  · decide

/-- C6 amended: for every element-type tag outside the closed set of ten
supported names, the conversion fails with a reported error (no panic)
before any conversion work, zero records are emitted, and the error
message enumerates the ten supported element types by their Rust
abbreviations (`i8, i16, i32, i64, u8, u16, u32, u64, f32, f64`) rather
than by the tag names themselves. -/
theorem unsupported_tag_reports_error {T : Type} [Zero T] (toField : T → String)
    (tag : String) (orient : Orient) (delim : Delimiter) (data : List T)
    (indptr indices : List Nat) (obs_vec var_vec : List String)
    (h : tag ∉ supportedTypeTags) :
    make_csv toField tag orient delim data indptr indices obs_vec var_vec
      = .error invalidTypeMsg ∧
    emittedRecords
      (make_csv toField tag orient delim data indptr indices obs_vec var_vec) = [] ∧
    ∀ s ∈ rustAbbrevs, hasRun s.toList invalidTypeMsg.toList = true := by
  simp only [supportedTypeTags, List.mem_cons, List.not_mem_nil, or_false, not_or] at h
  obtain ⟨h1, h2, h3, h4, h5, h6, h7, h8, h9, h10⟩ := h
  have hd : dispatchDtype tag = .error invalidTypeMsg := by
    simp [dispatchDtype, h1, h2, h3, h4, h5, h6, h7, h8, h9, h10]
  have he : make_csv toField tag orient delim data indptr indices obs_vec var_vec
      = .error invalidTypeMsg := by
    unfold make_csv
    rw [hd]
  exact ⟨he, by rw [he]; rfl, by decide⟩

/-- C6 amended witness: the spec's concrete unsupported tag
`"complex64"`. -/
theorem unsupported_tag_reports_error_witness :
    make_csv toString "complex64" Orient.VarNames Delimiter.Comma
      ([5, 7, 9] : List Int) [0, 1, 3] [1, 0, 2] ["r0", "r1"] ["c0", "c1", "c2"]
      = .error invalidTypeMsg ∧
    emittedRecords (make_csv toString "complex64" Orient.VarNames Delimiter.Comma
      ([5, 7, 9] : List Int) [0, 1, 3] [1, 0, 2] ["r0", "r1"] ["c0", "c1", "c2"]) = [] ∧
    ∀ s ∈ rustAbbrevs, hasRun s.toList invalidTypeMsg.toList = true :=
  unsupported_tag_reports_error toString "complex64" Orient.VarNames Delimiter.Comma
    [5, 7, 9] [0, 1, 3] [1, 0, 2] ["r0", "r1"] ["c0", "c1", "c2"] (by decide)

/-- C8: in the emitted output the header record — the row-label name
followed by the header labels — appears exactly once, as the first record
before any data record, and every data record holds exactly `len(header)`
values after its leading name field (total record length
`len(header) + 1 = len(hdrRecord)`). -/
theorem output_header_shape {T : Type} [Zero T] (toField : T → String)
    (orient : Orient) (delim : Delimiter) (data : List T)
    (indptr indices : List Nat) (obs_vec var_vec : List String)
    (d : Char) (recs : List (List String))
    (hsorted : ∀ s ∈ (CsrMatrix.mk obs_vec.length var_vec.length indptr
        indices data).rowSlices, List.Pairwise (· < ·) (s.map Prod.fst))
    (h : arrays_to_csv toField orient delim data indptr indices obs_vec var_vec
        = .ok (d, recs)) :
    ∃ rows, recs = hdrRecord orient obs_vec var_vec :: rows ∧
      ∀ r ∈ rows, r.length = (hdrRecord orient obs_vec var_vec).length := by
  unfold arrays_to_csv tryNewCsr at h
  cases hok : csrStructOk obs_vec.length var_vec.length indptr indices data.length with
  | false =>
    rw [hok] at h
    simp at h
  | true =>
    rw [hok] at h
    obtain ⟨hp1, hp2, hp3, hp4, hp5⟩ := (csrStructOk_iff _ _ _ _ _).mp hok
    cases orient with
    | VarNames =>
      simp only [if_true, orientSelect, Except.ok.injEq, Prod.mk.injEq] at h
      obtain ⟨hd2, hrecs⟩ := h
      refine ⟨_, hrecs.symm, ?_⟩
      intro r hr
      rw [List.mem_map] at hr
      obtain ⟨p, hp, rfl⟩ := hr
      have hps : p.1 ∈ (⟨obs_vec.length, var_vec.length, indptr, indices, data⟩ :
          CsrMatrix T).rowSlices := (List.of_mem_zip hp).1
      have hsort := hsorted p.1 hps
      have hlt : ∀ e ∈ p.1, e.1 < var_vec.length := by
        intro e he
        exact hp3 _ (rowSlices_entry_mem _ hps he)
      simp only [hdrRecord, List.length_cons, List.length_map]
      rw [materializeRow_length p.1 var_vec.length hsort hlt]
    | ObsNames =>
      simp only [if_true, orientSelect, Except.ok.injEq, Prod.mk.injEq] at h
      obtain ⟨hd2, hrecs⟩ := h
      refine ⟨_, hrecs.symm, ?_⟩
      intro r hr
      rw [List.mem_map] at hr
      obtain ⟨p, hp, rfl⟩ := hr
      have hps : p.1 ∈ (⟨obs_vec.length, var_vec.length, indptr, indices, data⟩ :
          CsrMatrix T).transpose.rowSlices := (List.of_mem_zip hp).1
      have hsort := transpose_slices_sorted _ hsorted p.1 hps
      have hlt : ∀ e ∈ p.1,
          e.1 < (⟨obs_vec.length, var_vec.length, indptr, indices, data⟩ :
            CsrMatrix T).transpose.ncols := by
        intro e he
        rw [transpose_ncols]
        exact transpose_slice_entry_lt _ hps he
      simp only [hdrRecord, List.length_cons, List.length_map]
      rw [materializeRow_length p.1 _ hsort hlt]
      rfl

/-- C8 witness: the spec's concrete 2×3 scenario in `VarNames`
orientation. -/
theorem output_header_shape_witness :
    ∃ rows, [["cell", "c0", "c1", "c2"], ["r0", "0", "5", "0"], ["r1", "7", "0", "9"]]
        = hdrRecord Orient.VarNames ["r0", "r1"] ["c0", "c1", "c2"] :: rows ∧
      ∀ r ∈ rows,
        r.length = (hdrRecord Orient.VarNames ["r0", "r1"] ["c0", "c1", "c2"]).length :=
  output_header_shape toString Orient.VarNames Delimiter.Comma ([5, 7, 9] : List Int)
    [0, 1, 3] [1, 0, 2] ["r0", "r1"] ["c0", "c1", "c2"] ','
    [["cell", "c0", "c1", "c2"], ["r0", "0", "5", "0"], ["r1", "7", "0", "9"]]
    (by decide) (by rfl)
